import Mathlib

/-!
Shallow embedding of `hanziconv/hanziconv.py` (class `HanziConv`).

The engine state is the pair of character inventories
(`__simplified_charmap`, `__traditional_charmap`), modelled as two lists of
characters.  The bundled dataset (`charmap.py`) only fixes a particular
initial state of equal length; all operations below are embedded over an
arbitrary state.

Python primitives used by the source are embedded explicitly:
  * `str.find`       -> `strFind` (first index of a character, `none` for -1)
  * `str.split()`    -> `pySplit` (split on runs of whitespace, no empties)
  * `str.replace(g, chr(39) ++ chr(39))` -> `removeAll` (delete every
    left-to-right non-overlapping occurrence of the substring `g`)
  * `x in s`         -> `containsSub` (substring containment)
  * `bytes.decode`   -> `utf8Decode?` (strict UTF-8, `none` on malformed input)
  * `toMap[index]`   -> `List.get?` (so an out-of-range access, Python
    `IndexError`, surfaces as `none` rather than being silently patched)
-/

namespace HanziConvSpec

/-- The engine's shared state: the two parallel character inventories. -/
structure CharMaps where
  simplified : List Char
  traditional : List Char
deriving DecidableEq, Repr

/-- Python whitespace characters recognised by `str.split()`: the characters
for which `str.isspace()` holds (ASCII whitespace, the C1 separators, and
the Unicode space separators). -/
def pySpace (c : Char) : Bool :=
  c = ' ' || c = '\t' || c = '\n' || c = '\r' || c = '\x0b' || c = '\x0c' ||
  c = '\x1c' || c = '\x1d' || c = '\x1e' || c = '\x1f' || c = '\x85' ||
  c = '\xa0' ||
  decide (c.toNat = 0x1680) ||
  (decide (0x2000 ≤ c.toNat) && decide (c.toNat ≤ 0x200A)) ||
  decide (c.toNat = 0x2028) || decide (c.toNat = 0x2029) ||
  decide (c.toNat = 0x202F) || decide (c.toNat = 0x205F) ||
  decide (c.toNat = 0x3000)

/-- Helper for `pySplit`: accumulates the current word (reversed) in `acc`. -/
def splitAux : List Char → List Char → List (List Char)
  | [], acc => if acc.isEmpty then [] else [acc.reverse]
  | c :: rest, acc =>
    if pySpace c then
      if acc.isEmpty then splitAux rest [] else acc.reverse :: splitAux rest []
    else
      splitAux rest (c :: acc)

/-- Embedding of Python `s.split()`: maximal runs of non-whitespace
characters, whitespace discarded, no empty groups. -/
def pySplit (s : List Char) : List (List Char) :=
  splitAux s []

/-- Embedding of Python `s.find(c)` for a single character `c`: index of the
first occurrence, `none` standing for the -1 result. -/
def strFind : List Char → Char → Option Nat
  | [], _ => none
  | c :: rest, d => if c = d then some 0 else (strFind rest d).map (· + 1)

/-- Helper for `removeAll`: walk the list left to right; `pending` counts
characters of an already-matched occurrence still to be consumed (no match
is attempted inside a matched occurrence, giving the non-overlapping
left-to-right semantics of Python `str.replace`). -/
def removeAllGo (sub : List Char) : List Char → Nat → List Char
  | [], _ => []
  | _ :: rest, pending + 1 => removeAllGo sub rest pending
  | c :: rest, 0 =>
    if sub.isPrefixOf (c :: rest) then removeAllGo sub rest (sub.length - 1)
    else c :: removeAllGo sub rest 0

/-- Embedding of Python `s.replace(sub, t)` with `t` the empty string:
remove every left-to-right non-overlapping occurrence of `sub` from `s`
(for an empty `sub` Python returns `s` unchanged). -/
def removeAll (sub s : List Char) : List Char :=
  match sub with
  | [] => s
  | _ :: _ => removeAllGo sub s 0

/-- Embedding of Python `sub in s` (substring containment). -/
def containsSub (s sub : List Char) : Bool :=
  match s with
  | [] => sub.isEmpty
  | c :: rest => sub.isPrefixOf (c :: rest) || containsSub rest sub

/-- The two error kinds raised by the mutation operations
(`ValueError` distinguished by which check fired, as in the spec). -/
inductive MutErr where
  | arity
  | consistency
deriving DecidableEq, Repr

/-- Embedding of `HanziConv.ignore_char_map`.  Returns the resulting state
together with the error raised, if any: the Python code mutates the class
attributes in place before the final length check, so the post-error state
is part of the observable behaviour. -/
def ignore_char_map (st : CharMaps) (simplified_chars traditional_chars : List Char) :
    CharMaps × Option MutErr :=
  if simplified_chars.length ≠ traditional_chars.length then
    (st, some .arity)
  else
    let s' := (pySplit simplified_chars).foldl (fun m g => removeAll g m) st.simplified
    let t' := (pySplit traditional_chars).foldl (fun m g => removeAll g m) st.traditional
    if s'.length ≠ t'.length then
      (⟨s', t'⟩, some .consistency)
    else
      (⟨s', t'⟩, none)

/-- Embedding of `HanziConv.extend_char_map`.  Both error paths precede any
mutation, so the state component equals the input state on error. -/
def extend_char_map (st : CharMaps) (simplified_chars traditional_chars : List Char) :
    CharMaps × Option MutErr :=
  if simplified_chars.length ≠ traditional_chars.length then
    (st, some .arity)
  else
    let extraS := (pySplit simplified_chars).filter (fun g => ! containsSub st.simplified g)
    let extraT := (pySplit traditional_chars).filter (fun g => ! containsSub st.traditional g)
    if extraS.length ≠ extraT.length then
      (st, some .consistency)
    else
      (⟨st.simplified ++ extraS.flatten, st.traditional ++ extraT.flatten⟩, none)

/-- One step of the conversion loop body: look up the first occurrence of `c`
in `fromMap`; on a hit emit `toMap[index]` (`none` models Python's
`IndexError` when the index is out of range of `toMap`), on a miss emit `c`. -/
def convChar (fromMap toMap : List Char) (c : Char) : Option Char :=
  match strFind fromMap c with
  | some i => toMap.get? i
  | none => some c

/-- The conversion loop of `HanziConv.__convert`: left to right over the
text, failing at the first out-of-range target access. -/
def convertChars (fromMap toMap : List Char) : List Char → Option (List Char)
  | [] => some []
  | c :: rest => do
    let d ← convChar fromMap toMap c
    let ds ← convertChars fromMap toMap rest
    pure (d :: ds)

/-- Embedding of `HanziConv.__convert` on already-decoded text:
`toTrad = true` converts simplified → traditional, `toTrad = false`
traditional → simplified. -/
def hcConvert (st : CharMaps) (toTrad : Bool) (text : List Char) : Option (List Char) :=
  convertChars
    (if toTrad then st.simplified else st.traditional)
    (if toTrad then st.traditional else st.simplified)
    text

/-- Embedding of `HanziConv.toSimplified` on decoded text. -/
def toSimplified (st : CharMaps) (text : List Char) : Option (List Char) :=
  hcConvert st false text

/-- Embedding of `HanziConv.toTraditional` on decoded text. -/
def toTraditional (st : CharMaps) (text : List Char) : Option (List Char) :=
  hcConvert st true text

/-- Embedding of `HanziConv.same` on decoded text. -/
def same (st : CharMaps) (text1 text2 : List Char) : Option Bool := do
  let t1 ← toSimplified st text1
  let t2 ← toSimplified st text2
  pure (t1 == t2)

/-- Input to `__convert` as the source accepts it: raw bytes or decoded text. -/
inductive HcInput where
  | bytes (bs : List Nat)
  | text (s : List Char)

/-- Errors `__convert` can raise: `UnicodeDecodeError` on malformed bytes,
`IndexError` on an out-of-range target-inventory access. -/
inductive ConvErr where
  | decoding
  | indexErr
deriving DecidableEq, Repr

/-- A UTF-8 continuation byte. -/
def isCont (b : Nat) : Bool :=
  decide (0x80 ≤ b ∧ b ≤ 0xBF)

/-- Constraint on the second byte of a 3-byte sequence (excludes overlong
encodings and surrogates, as Python's strict decoder does). -/
def cont3ok (b0 b1 : Nat) : Bool :=
  if b0 = 0xE0 then decide (0xA0 ≤ b1 ∧ b1 ≤ 0xBF)
  else if b0 = 0xED then decide (0x80 ≤ b1 ∧ b1 ≤ 0x9F)
  else isCont b1

/-- Constraint on the second byte of a 4-byte sequence (excludes overlong
encodings and code points above 0x10FFFF). -/
def cont4ok (b0 b1 : Nat) : Bool :=
  if b0 = 0xF0 then decide (0x90 ≤ b1 ∧ b1 ≤ 0xBF)
  else if b0 = 0xF4 then decide (0x80 ≤ b1 ∧ b1 ≤ 0x8F)
  else isCont b1

/-- Embedding of Python `bytes.decode` with strict UTF-8 semantics:
`none` models `UnicodeDecodeError`. -/
def utf8Decode? : List Nat → Option (List Char)
  | [] => some []
  | b0 :: rest =>
    if b0 ≤ 0x7F then
      (utf8Decode? rest).map (fun cs => Char.ofNat b0 :: cs)
    else if 0xC2 ≤ b0 ∧ b0 ≤ 0xDF then
      match rest with
      | b1 :: rest1 =>
        if isCont b1 then
          (utf8Decode? rest1).map
            (fun cs => Char.ofNat ((b0 % 0x20) * 0x40 + b1 % 0x40) :: cs)
        else none
      | [] => none
    else if 0xE0 ≤ b0 ∧ b0 ≤ 0xEF then
      match rest with
      | b1 :: b2 :: rest2 =>
        if cont3ok b0 b1 ∧ isCont b2 then
          (utf8Decode? rest2).map
            (fun cs => Char.ofNat ((b0 % 0x10) * 0x1000 + (b1 % 0x40) * 0x40 + b2 % 0x40) :: cs)
        else none
      | _ => none
    else if 0xF0 ≤ b0 ∧ b0 ≤ 0xF4 then
      match rest with
      | b1 :: b2 :: b3 :: rest3 =>
        if cont4ok b0 b1 ∧ isCont b2 ∧ isCont b3 then
          (utf8Decode? rest3).map
            (fun cs => Char.ofNat
              ((b0 % 0x8) * 0x40000 + (b1 % 0x40) * 0x1000 + (b2 % 0x40) * 0x40 + b3 % 0x40) :: cs)
        else none
      | _ => none
    else none

/-- Embedding of `HanziConv.__convert` on either input shape, with the
decode step of the source (`text.decode` when the input is `bytes`). -/
def hcConvertE (st : CharMaps) (toTrad : Bool) (inp : HcInput) : Except ConvErr (List Char) :=
  match inp with
  | .bytes bs =>
    match utf8Decode? bs with
    | none => .error .decoding
    | some s =>
      match hcConvert st toTrad s with
      | some r => .ok r
      | none => .error .indexErr
  | .text s =>
    match hcConvert st toTrad s with
    | some r => .ok r
    | none => .error .indexErr

/-- Embedding of `HanziConv.same` on either input shape. -/
def sameE (st : CharMaps) (a b : HcInput) : Except ConvErr Bool := do
  let t1 ← hcConvertE st false a
  let t2 ← hcConvertE st false b
  pure (t1 == t2)

/-!  Helper lemmas about the embedded Python primitives. -/

/-- A hit of `strFind` really is a first occurrence: the character is at the
returned index and at no earlier index. -/
theorem strFind_some_first (s : List Char) (c : Char) :
    ∀ i : Nat, strFind s c = some i →
      s.get? i = some c ∧ ∀ k : Nat, k < i → s.get? k ≠ some c := by
  induction s with
  | nil => intro i h; simp [strFind] at h
  | cons x rest ih =>
    intro i h
    rw [strFind] at h
    by_cases hx : x = c
    · rw [if_pos hx] at h
      cases h
      subst hx
      exact ⟨rfl, fun k hk => absurd hk (Nat.not_lt_zero k)⟩
    · rw [if_neg hx] at h
      cases hfind : strFind rest c with
      | none => rw [hfind] at h; simp at h
      | some j =>
        rw [hfind] at h
        have h' : some (j + 1) = some i := h
        cases Option.some.inj h'
        obtain ⟨hj, hmin⟩ := ih j hfind
        refine ⟨hj, fun k hk => ?_⟩
        cases k with
        | zero =>
          simp only [List.get?_cons_zero, ne_eq, Option.some_inj]
          exact hx
        | succ k =>
          simp only [List.get?_cons_succ]
          exact hmin k (Nat.lt_of_succ_lt_succ hk)

/-- A miss of `strFind` means the character occurs nowhere. -/
theorem strFind_none_not_mem (s : List Char) (c : Char)
    (h : strFind s c = none) : ∀ k : Nat, s.get? k ≠ some c := by
  induction s with
  | nil => intro k; simp
  | cons x rest ih =>
    rw [strFind] at h
    by_cases hx : x = c
    · rw [if_pos hx] at h; simp at h
    · rw [if_neg hx] at h
      intro k
      cases k with
      | zero =>
        simp only [List.get?_cons_zero, ne_eq, Option.some_inj]
        exact hx
      | succ k =>
        simp only [List.get?_cons_succ]
        cases hfind : strFind rest c with
        | none => exact ih hfind k
        | some j => rw [hfind] at h; simp at h

/-- `strFind` computes exactly the first-occurrence relation. -/
theorem strFind_eq_some_iff (s : List Char) (c : Char) (i : Nat) :
    strFind s c = some i ↔
      s.get? i = some c ∧ ∀ k : Nat, k < i → s.get? k ≠ some c := by
  constructor
  · exact strFind_some_first s c i
  · rintro ⟨hi, hmin⟩
    cases hfind : strFind s c with
    | none => exact absurd hi (strFind_none_not_mem s c hfind i)
    | some j =>
      obtain ⟨hj, hjmin⟩ := strFind_some_first s c j hfind
      rcases Nat.lt_trichotomy i j with hlt | heq | hgt
      · exact absurd hi (hjmin i hlt)
      · rw [heq]
      · exact absurd hj (hmin j hgt)

/-- `strFind` misses exactly when the character occurs nowhere. -/
theorem strFind_eq_none_iff (s : List Char) (c : Char) :
    strFind s c = none ↔ ∀ k : Nat, s.get? k ≠ some c := by
  constructor
  · exact strFind_none_not_mem s c
  · intro h
    cases hfind : strFind s c with
    | none => rfl
    | some j => exact absurd (strFind_some_first s c j hfind).1 (h j)

/-- An index found by `strFind` is in range of the searched list. -/
theorem strFind_lt_length (s : List Char) (c : Char) (i : Nat)
    (h : strFind s c = some i) : i < s.length := by
  obtain ⟨hi, -⟩ := strFind_some_first s c i h
  rw [List.get?_eq_some] at hi
  exact hi.1

/-- Pointwise description of a successful conversion loop run: the output has
the input's length and each output position is the loop body applied to the
corresponding input character. -/
theorem convertChars_spec (f t : List Char) :
    ∀ text out : List Char, convertChars f t text = some out →
      out.length = text.length ∧
        ∀ (j : Nat) (cj : Char), text.get? j = some cj →
          out.get? j = convChar f t cj := by
  intro text
  induction text with
  | nil =>
    intro out h
    cases h
    exact ⟨rfl, fun j cj hj => by simp at hj⟩
  | cons c rest ih =>
    intro out h
    rw [convertChars] at h
    cases hd : convChar f t c with
    | none => rw [hd] at h; simp at h
    | some d =>
      rw [hd] at h
      cases htl : convertChars f t rest with
      | none => rw [htl] at h; simp at h
      | some ds =>
        rw [htl] at h
        simp only [Option.bind_some, Option.bind_eq_bind] at h
        cases h
        obtain ⟨hlen, hpt⟩ := ih ds htl
        refine ⟨by simpa using hlen, fun j cj hj => ?_⟩
        cases j with
        | zero =>
          simp only [List.get?_cons_zero, Option.some_inj] at hj
          subst hj
          simpa using hd.symm
        | succ j =>
          simp only [List.get?_cons_succ] at hj ⊢
          exact hpt j cj hj

/-- When the two inventories have the same length, the loop body never hits
an out-of-range target access. -/
theorem convChar_total (f t : List Char) (hlen : f.length = t.length)
    (c : Char) : ∃ d, convChar f t c = some d := by
  rw [convChar]
  cases hfind : strFind f c with
  | none => exact ⟨c, rfl⟩
  | some i =>
    have hi : i < t.length := hlen ▸ strFind_lt_length f c i hfind
    cases hg : t.get? i with
    | none => rw [List.get?_eq_none] at hg; omega
    | some d => exact ⟨d, hg⟩

/-- When the two inventories have the same length, the conversion loop
succeeds on every text. -/
theorem convertChars_total (f t : List Char) (hlen : f.length = t.length) :
    ∀ text : List Char, ∃ out, convertChars f t text = some out := by
  intro text
  induction text with
  | nil => exact ⟨[], rfl⟩
  | cons c rest ih =>
    obtain ⟨d, hd⟩ := convChar_total f t hlen c
    obtain ⟨ds, hds⟩ := ih
    exact ⟨d :: ds, by rw [convertChars, hd, hds]; rfl⟩

/-- If a character occurs exactly once in a list, `strFind` locates that
occurrence. -/
theorem strFind_of_count_one (s : List Char) (c : Char) :
    ∀ i : Nat, s.count c = 1 → s.get? i = some c → strFind s c = some i := by
  induction s with
  | nil => intro i h1 h2; simp at h2
  | cons x rest ih =>
    intro i h1 h2
    rw [List.count_cons] at h1
    by_cases hx : x = c
    · have hc0 : rest.count c = 0 := by simp [hx] at h1; omega
      have hnot : c ∉ rest := List.count_eq_zero.mp hc0
      cases i with
      | zero => rw [strFind, if_pos hx]
      | succ i =>
        exfalso
        simp only [List.get?_cons_succ] at h2
        exact hnot (List.mem_iff_get?.mpr ⟨i, h2⟩)
    · cases i with
      | zero =>
        simp only [List.get?_cons_zero, Option.some_inj] at h2
        exact absurd h2 hx
      | succ i =>
        simp only [List.get?_cons_succ] at h2
        have h1' : rest.count c = 1 := by simp [hx] at h1; omega
        rw [strFind, if_neg hx, ih i h1' h2]
        rfl

/-- Removing substring occurrences only deletes characters: the result is a
sublist of the original. -/
theorem removeAllGo_sublist (sub : List Char) :
    ∀ (s : List Char) (k : Nat), (removeAllGo sub s k).Sublist s := by
  intro s
  induction s with
  | nil => intro k; cases k <;> simp [removeAllGo]
  | cons c rest ih =>
    intro k
    cases k with
    | succ k =>
      show (removeAllGo sub rest k).Sublist (c :: rest)
      exact (ih k).trans (List.sublist_cons_self c rest)
    | zero =>
      show (if sub.isPrefixOf (c :: rest) = true then
              removeAllGo sub rest (sub.length - 1)
            else c :: removeAllGo sub rest 0).Sublist (c :: rest)
      split
      · exact (ih (sub.length - 1)).trans (List.sublist_cons_self c rest)
      · exact (ih 0).cons₂ c

/-- `removeAll` returns a sublist of its input. -/
theorem removeAll_sublist (sub s : List Char) : (removeAll sub s).Sublist s := by
  cases sub with
  | nil => exact List.Sublist.refl s
  | cons a asub => exact removeAllGo_sublist (a :: asub) s 0

/-- Removing the one-character group `[c]` removes every occurrence of `c`. -/
theorem not_mem_removeAll_single (c : Char) (s : List Char) :
    c ∉ removeAll [c] s := by
  show c ∉ removeAllGo [c] s 0
  induction s with
  | nil => simp [removeAllGo]
  | cons d rest ih =>
    show c ∉ (if [c].isPrefixOf (d :: rest) = true then
                removeAllGo [c] rest ([c].length - 1)
              else d :: removeAllGo [c] rest 0)
    by_cases hd : [c].isPrefixOf (d :: rest) = true
    · rw [if_pos hd]
      exact ih
    · rw [if_neg hd]
      simp only [List.mem_cons]
      rintro (rfl | hmem)
      · exact hd (by simp [List.isPrefixOf])
      · exact ih hmem

/-- Membership after a removal fold implies membership before it. -/
theorem mem_of_mem_foldl_removeAll (gs : List (List Char)) :
    ∀ (m : List Char) (c : Char),
      c ∈ gs.foldl (fun m g => removeAll g m) m → c ∈ m := by
  induction gs with
  | nil => intro m c h; simpa using h
  | cons g gs ih =>
    intro m c h
    rw [List.foldl_cons] at h
    exact (removeAll_sublist g m).mem (ih (removeAll g m) c h)

/-- If `[c]` is one of the groups of a removal fold, `c` is absent from the
result. -/
theorem not_mem_foldl_removeAll_of_single (gs : List (List Char)) :
    ∀ (m : List Char) (c : Char), [c] ∈ gs →
      c ∉ gs.foldl (fun m g => removeAll g m) m := by
  induction gs with
  | nil => intro m c h; simp at h
  | cons g gs ih =>
    intro m c hmem hfold
    rw [List.foldl_cons] at hfold
    rcases List.mem_cons.mp hmem with heq | htail
    · subst heq
      exact not_mem_removeAll_single c m
        (mem_of_mem_foldl_removeAll gs (removeAll [c] m) c hfold)
    · exact ih (removeAll g m) c htail hfold

/-- A list remains a prefix after extending the larger list on the right. -/
theorem isPrefixOf_append_extend (p : List Char) :
    ∀ s v : List Char, p.isPrefixOf s = true → p.isPrefixOf (s ++ v) = true := by
  induction p with
  | nil => intro s v _; simp [List.isPrefixOf]
  | cons a as ih =>
    intro s v h
    cases s with
    | nil => simp [List.isPrefixOf] at h
    | cons b bs =>
      simp only [List.isPrefixOf, Bool.and_eq_true] at h
      simp only [List.cons_append, List.isPrefixOf, Bool.and_eq_true]
      exact ⟨h.1, ih bs v h.2⟩

/-- Every list is a prefix of itself followed by anything. -/
theorem isPrefixOf_self_append (p v : List Char) :
    p.isPrefixOf (p ++ v) = true := by
  induction p with
  | nil => simp [List.isPrefixOf]
  | cons a as ih => simp [List.isPrefixOf]

/-- The empty pattern is a substring of every list. -/
theorem containsSub_nil_sub (s : List Char) : containsSub s [] = true := by
  cases s with
  | nil => rfl
  | cons c rest => simp [containsSub, List.isPrefixOf]

/-- Substring containment survives appending on the right. -/
theorem containsSub_append_right (s : List Char) :
    ∀ v sub : List Char, containsSub s sub = true →
      containsSub (s ++ v) sub = true := by
  induction s with
  | nil =>
    intro v sub h
    simp only [containsSub, List.isEmpty_iff] at h
    subst h
    simpa using containsSub_nil_sub v
  | cons c rest ih =>
    intro v sub h
    rw [containsSub, Bool.or_eq_true] at h
    rw [List.cons_append, containsSub, Bool.or_eq_true]
    rcases h with h | h
    · exact Or.inl (by simpa using isPrefixOf_append_extend sub (c :: rest) v h)
    · exact Or.inr (ih v sub h)

/-- Substring containment survives prepending on the left. -/
theorem containsSub_append_left (u : List Char) :
    ∀ s sub : List Char, containsSub s sub = true →
      containsSub (u ++ s) sub = true := by
  induction u with
  | nil => intro s sub h; simpa using h
  | cons c u ih =>
    intro s sub h
    rw [List.cons_append, containsSub, Bool.or_eq_true]
    exact Or.inr (ih s sub h)

/-- A list is a substring of itself followed by anything. -/
theorem containsSub_front (g v : List Char) : containsSub (g ++ v) g = true := by
  cases g with
  | nil => simpa using containsSub_nil_sub v
  | cons a as =>
    rw [List.cons_append, containsSub, Bool.or_eq_true]
    exact Or.inl (isPrefixOf_self_append (a :: as) v)

/-- Each member of a list of groups is a substring of any list ending in the
concatenation of those groups. -/
theorem containsSub_append_flatten (s0 : List Char) (l : List (List Char))
    (g : List Char) (h : g ∈ l) : containsSub (s0 ++ l.flatten) g = true := by
  obtain ⟨l1, l2, rfl⟩ := List.append_of_mem h
  rw [List.flatten_append, List.flatten_cons, ← List.append_assoc, ← List.append_assoc]
  rw [List.append_assoc (s0 ++ l1.flatten)]
  exact containsSub_append_left (s0 ++ l1.flatten) _ g (containsSub_front g l2.flatten)

/-!  Claim theorems. -/

/-- C1: `convert` processes the text one character at a time in original
order; for each character it looks up the first occurrence of that character
in the source inventory (traditional when converting to simplified,
simplified when converting to traditional); if found at index `i` it emits
the character at index `i` of the target inventory, and if not found it
emits the original character unchanged. -/
theorem c1_convert_pointwise (st : CharMaps) (toTrad : Bool)
    (fromMap toMap text out : List Char)
    (hf : fromMap = if toTrad then st.simplified else st.traditional)
    (ht : toMap = if toTrad then st.traditional else st.simplified)
    (h : hcConvert st toTrad text = some out) :
    out.length = text.length ∧
      ∀ (j : Nat) (cj : Char), text.get? j = some cj →
        (∀ i : Nat,
            (fromMap.get? i = some cj ∧
              ∀ k : Nat, k < i → fromMap.get? k ≠ some cj) →
            out.get? j = toMap.get? i) ∧
        ((∀ i : Nat, fromMap.get? i ≠ some cj) → out.get? j = some cj) := by
  subst hf
  subst ht
  rw [hcConvert] at h
  obtain ⟨hlen, hpt⟩ := convertChars_spec _ _ text out h
  refine ⟨hlen, fun j cj hj => ⟨fun i hi => ?_, fun hnone => ?_⟩⟩
  · rw [hpt j cj hj, convChar, (strFind_eq_some_iff _ cj i).mpr hi]
  · rw [hpt j cj hj, convChar, (strFind_eq_none_iff _ cj).mpr hnone]

/-- C1 witness: a concrete run, simplified → traditional over the state
(simplified = "ab", traditional = "xy") on the text "bz". -/
theorem c1_convert_pointwise_witness :
    (['y', 'z'] : List Char).length = (['b', 'z'] : List Char).length ∧
      ∀ (j : Nat) (cj : Char), (['b', 'z'] : List Char).get? j = some cj →
        (∀ i : Nat,
            ((['a', 'b'] : List Char).get? i = some cj ∧
              ∀ k : Nat, k < i → (['a', 'b'] : List Char).get? k ≠ some cj) →
            (['y', 'z'] : List Char).get? j = (['x', 'y'] : List Char).get? i) ∧
        ((∀ i : Nat, (['a', 'b'] : List Char).get? i ≠ some cj) →
            (['y', 'z'] : List Char).get? j = some cj) :=
  c1_convert_pointwise ⟨['a', 'b'], ['x', 'y']⟩ true ['a', 'b'] ['x', 'y']
    ['b', 'z'] ['y', 'z'] rfl rfl (by decide)

/-- C2: `same a b` returns `true` exactly when `toSimplified a` and
`toSimplified b` are identical character sequences. -/
theorem c2_same_iff_toSimplified_eq (st : CharMaps) (a b : List Char) :
    same st a b = some true ↔
      ∃ x, toSimplified st a = some x ∧ toSimplified st b = some x := by
  rw [same]
  cases ha : toSimplified st a with
  | none => simp [ha]
  | some x =>
    cases hb : toSimplified st b with
    | none => simp [hb]
    | some y =>
      simp only [ha, hb, Option.bind_eq_bind, Option.some_bind, Option.pure_def,
        Option.some_inj, beq_iff_eq]
      constructor
      · rintro rfl
        exact ⟨x, rfl, rfl⟩
      · rintro ⟨z, hz1, hz2⟩
        rw [hz1, hz2]

/-- C8: whenever a conversion succeeds, the output has exactly as many
characters as the input. -/
theorem c8_length_preservation (st : CharMaps) (toTrad : Bool)
    (text out : List Char) (h : hcConvert st toTrad text = some out) :
    out.length = text.length :=
  (convertChars_spec _ _ text out (by rw [hcConvert] at h; exact h)).1

/-- C8 witness: converting "aq" over (simplified = "a", traditional = "b")
gives "bq", of the input's length. -/
theorem c8_length_preservation_witness :
    (['b', 'q'] : List Char).length = (['a', 'q'] : List Char).length :=
  c8_length_preservation ⟨['a'], ['b']⟩ true ['a', 'q'] ['b', 'q'] (by decide)

/-- C10: under invariant I1 (equal inventory lengths) every index returned
by the source-inventory search is a valid position of the target inventory,
so the conversion loop is total. -/
theorem c10_inbounds_total (st : CharMaps)
    (h : st.simplified.length = st.traditional.length) (toTrad : Bool) :
    (∀ (c : Char) (i : Nat),
        strFind (if toTrad then st.simplified else st.traditional) c = some i →
        i < (if toTrad then st.traditional else st.simplified).length) ∧
    ∀ text : List Char, ∃ out, hcConvert st toTrad text = some out := by
  cases toTrad with
  | false =>
    refine ⟨fun c i hfind => ?_, fun text => ?_⟩
    · have hlt := strFind_lt_length st.traditional c i (by simpa using hfind)
      simpa [h] using hlt
    · simpa [hcConvert] using convertChars_total st.traditional st.simplified h.symm text
  | true =>
    refine ⟨fun c i hfind => ?_, fun text => ?_⟩
    · have hlt := strFind_lt_length st.simplified c i (by simpa using hfind)
      simpa [← h] using hlt
    · simpa [hcConvert] using convertChars_total st.simplified st.traditional h text

/-- C10 witness: in-bounds search and totality at the concrete state
(simplified = "a", traditional = "b"). -/
theorem c10_inbounds_total_witness :
    (∀ (c : Char) (i : Nat),
        strFind (if true then (⟨['a'], ['b']⟩ : CharMaps).simplified
                 else (⟨['a'], ['b']⟩ : CharMaps).traditional) c = some i →
        i < (if true then (⟨['a'], ['b']⟩ : CharMaps).traditional
             else (⟨['a'], ['b']⟩ : CharMaps).simplified).length) ∧
    ∀ text : List Char,
      ∃ out, hcConvert (⟨['a'], ['b']⟩ : CharMaps) true text = some out :=
  c10_inbounds_total ⟨['a'], ['b']⟩ (by decide) true

/-- C3 counterexample: from the equal-length state (simplified = "aa",
traditional = "bc"), `ignore_char_map "a" "b"` raises the consistency error
with the removals already applied, so the inventories are NOT as they were
before the call. -/
theorem c3_counterexample :
    ignore_char_map ⟨['a', 'a'], ['b', 'c']⟩ ['a'] ['b'] =
      (⟨[], ['c']⟩, some MutErr.consistency) ∧
    (⟨[], ['c']⟩ : CharMaps) ≠ ⟨['a', 'a'], ['b', 'c']⟩ := by decide

/-- C3 (amended): `extend_char_map` leaves the inventories unchanged on
every error, and `ignore_char_map` leaves them unchanged on the arity
error; its consistency error, however, is raised only after the removals
have been applied (see the counterexample). -/
theorem c3_amended_error_atomicity :
    (∀ (st st' : CharMaps) (a b : List Char) (e : MutErr),
        extend_char_map st a b = (st', some e) → st' = st) ∧
    (∀ (st st' : CharMaps) (a b : List Char),
        ignore_char_map st a b = (st', some MutErr.arity) → st' = st) := by
  constructor
  · intro st st' a b e h
    simp only [extend_char_map] at h
    split at h
    · injection h with h1 h2
      exact h1.symm
    · split at h
      · injection h with h1 h2
        exact h1.symm
      · injection h with h1 h2
        simp at h2
  · intro st st' a b h
    simp only [ignore_char_map] at h
    split at h
    · injection h with h1 h2
      exact h1.symm
    · split at h
      · injection h with h1 h2
        simp at h2
      · injection h with h1 h2
        simp at h2

/-- C3 witness: a concrete arity failure of `extend_char_map`, after which
the state is unchanged. -/
theorem c3_amended_error_atomicity_witness :
    extend_char_map ⟨['x'], ['y']⟩ ['a'] ['b', 'c'] =
      (⟨['x'], ['y']⟩, some MutErr.arity) ∧
    (⟨['x'], ['y']⟩ : CharMaps) = ⟨['x'], ['y']⟩ :=
  ⟨by decide,
    c3_amended_error_atomicity.1 ⟨['x'], ['y']⟩ ⟨['x'], ['y']⟩ ['a'] ['b', 'c']
      MutErr.arity (by decide)⟩

/-- C4 counterexample: on arguments "a b" versus "ab" the flattened
character lists (whitespace excluded) have equal length 2, yet the call
fails with the arity error — the precheck compares raw string lengths,
whitespace included, not flattened lists. -/
theorem c4_counterexample :
    (ignore_char_map ⟨['x'], ['y']⟩ ['a', ' ', 'b'] ['a', 'b']).2 =
      some MutErr.arity ∧
    (pySplit ['a', ' ', 'b']).flatten.length =
      (pySplit ['a', 'b']).flatten.length := by decide

/-- C4 (amended): `ignore_char_map` fails with the arity error, before any
mutation and with the state unchanged, exactly when the raw lengths of the
two argument strings (whitespace included) differ; "ab" versus "a" still
fails this way. -/
theorem c4_amended_raw_length_arity (st : CharMaps) (a b : List Char) :
    ((ignore_char_map st a b).2 = some MutErr.arity ↔ a.length ≠ b.length) ∧
    (a.length ≠ b.length → ignore_char_map st a b = (st, some MutErr.arity)) := by
  refine ⟨⟨fun h hEq => ?_, fun hlen => ?_⟩, fun hlen => ?_⟩
  · have hcond : ¬ a.length ≠ b.length := fun hne => hne hEq
    simp only [ignore_char_map, if_neg hcond] at h
    split at h <;> simp at h
  · simp [ignore_char_map, if_pos hlen]
  · simp [ignore_char_map, if_pos hlen]

/-- C4 witness: the spec's own example, "ab" versus "a". -/
theorem c4_amended_raw_length_arity_witness :
    ignore_char_map ⟨[], []⟩ ['a', 'b'] ['a'] = (⟨[], []⟩, some MutErr.arity) :=
  (c4_amended_raw_length_arity ⟨[], []⟩ ['a', 'b'] ['a']).2 (by decide)

/-- C5 counterexample: with inventories (simplified = "ab",
traditional = "cd"), `ignore_char_map "ba" "dc"` succeeds without touching
either inventory: the character 'b' is listed in the simplifiedChars
argument, yet it survives, because removal works on whole
whitespace-delimited groups as contiguous substrings and "ba" occurs
nowhere in "ab". -/
theorem c5_counterexample :
    ignore_char_map ⟨['a', 'b'], ['c', 'd']⟩ ['b', 'a'] ['d', 'c'] =
      (⟨['a', 'b'], ['c', 'd']⟩, none) ∧
    'b' ∈ (['b', 'a'] : List Char) ∧
    'b' ∈ ((ignore_char_map ⟨['a', 'b'], ['c', 'd']⟩ ['b', 'a'] ['d', 'c']).1).simplified := by
  decide

/-- C5 (amended): removal operates per whitespace-delimited group, deleting
occurrences of the group as a contiguous substring; in particular, whenever
the raw-length precheck passes, any character listed as its own singleton
group is removed at every occurrence from the corresponding inventory
(symmetrically on both sides). -/
theorem c5_amended_singleton_group_removal (st : CharMaps)
    (sArg tArg : List Char) (c d : Char)
    (hlen : sArg.length = tArg.length) :
    ([c] ∈ pySplit sArg → c ∉ ((ignore_char_map st sArg tArg).1).simplified) ∧
    ([d] ∈ pySplit tArg → d ∉ ((ignore_char_map st sArg tArg).1).traditional) := by
  have hcond : ¬ sArg.length ≠ tArg.length := fun hne => hne hlen
  constructor
  · intro hc
    simp only [ignore_char_map, if_neg hcond]
    split
    · exact not_mem_foldl_removeAll_of_single (pySplit sArg) st.simplified c hc
    · exact not_mem_foldl_removeAll_of_single (pySplit sArg) st.simplified c hc
  · intro hd
    simp only [ignore_char_map, if_neg hcond]
    split
    · exact not_mem_foldl_removeAll_of_single (pySplit tArg) st.traditional d hd
    · exact not_mem_foldl_removeAll_of_single (pySplit tArg) st.traditional d hd

/-- C5 witness: ignoring the singleton group "a" removes both occurrences
of 'a' from the simplified inventory "axa". -/
theorem c5_amended_singleton_group_removal_witness :
    'a' ∉ ((ignore_char_map ⟨['a', 'x', 'a'], ['p', 'q', 'r']⟩ ['a'] ['p']).1).simplified :=
  (c5_amended_singleton_group_removal ⟨['a', 'x', 'a'], ['p', 'q', 'r']⟩
    ['a'] ['p'] 'a' 'p' rfl).1 (by decide)

/-- C6 counterexample: the presence check is per whitespace-delimited group
(substring containment), not per character.  From the state
(simplified = "a", traditional = "b"), `extend_char_map "ab" "cd"` succeeds
and appends the whole group "ab", so the already-present character 'a' is
appended again (its count rises to 2) instead of being silently skipped. -/
theorem c6_counterexample :
    'a' ∈ (⟨['a'], ['b']⟩ : CharMaps).simplified ∧
    extend_char_map ⟨['a'], ['b']⟩ ['a', 'b'] ['c', 'd'] =
      (⟨['a', 'a', 'b'], ['b', 'c', 'd']⟩, none) ∧
    List.count 'a' (⟨['a', 'a', 'b'], ['b', 'c', 'd']⟩ : CharMaps).simplified = 2 := by
  decide

/-- C6 (amended): `extend_char_map` silently skips whole whitespace-delimited
groups already present in their respective inventory (as contiguous
substrings) and appends only the new groups, at the trailing indices of
both inventories — a character already present is still re-appended when it
arrives inside a larger new group.  Consequently re-invoking
`extend_char_map` with the identical arguments a second time is a no-op
returning the same state with no error, not a duplicate append. -/
theorem c6_extend_idempotent (st st' : CharMaps) (a b : List Char)
    (h : extend_char_map st a b = (st', none)) :
    st'.simplified = st.simplified ++
        ((pySplit a).filter (fun g => ! containsSub st.simplified g)).flatten ∧
    st'.traditional = st.traditional ++
        ((pySplit b).filter (fun g => ! containsSub st.traditional g)).flatten ∧
    extend_char_map st' a b = (st', none) := by
  by_cases hab : a.length ≠ b.length
  · simp only [extend_char_map, if_pos hab] at h
    injection h with h1 h2
    simp at h2
  · simp only [extend_char_map, if_neg hab] at h
    split at h
    · injection h with h1 h2
      simp at h2
    · injection h with h1 h2
      obtain rfl := h1.symm
      refine ⟨rfl, rfl, ?_⟩
      have hS : (pySplit a).filter
          (fun g => ! containsSub (st.simplified ++
            ((pySplit a).filter (fun g => ! containsSub st.simplified g)).flatten) g) = [] := by
        rw [List.filter_eq_nil_iff]
        intro g hg
        have hyes : containsSub (st.simplified ++
            ((pySplit a).filter (fun g => ! containsSub st.simplified g)).flatten) g = true := by
          by_cases hin : containsSub st.simplified g = true
          · exact containsSub_append_right st.simplified _ g hin
          · refine containsSub_append_flatten st.simplified _ g
              (List.mem_filter.mpr ⟨hg, ?_⟩)
            cases hcs : containsSub st.simplified g with
            | false => rfl
            | true => exact absurd hcs hin
        simp [hyes]
      have hT : (pySplit b).filter
          (fun g => ! containsSub (st.traditional ++
            ((pySplit b).filter (fun g => ! containsSub st.traditional g)).flatten) g) = [] := by
        rw [List.filter_eq_nil_iff]
        intro g hg
        have hyes : containsSub (st.traditional ++
            ((pySplit b).filter (fun g => ! containsSub st.traditional g)).flatten) g = true := by
          by_cases hin : containsSub st.traditional g = true
          · exact containsSub_append_right st.traditional _ g hin
          · refine containsSub_append_flatten st.traditional _ g
              (List.mem_filter.mpr ⟨hg, ?_⟩)
            cases hcs : containsSub st.traditional g with
            | false => rfl
            | true => exact absurd hcs hin
        simp [hyes]
      simp [extend_char_map, if_neg hab, hS, hT]

/-- C6 witness: extending (simplified = "a", traditional = "b") with the
pair "c"/"d" appends at the end, and repeating the call is a no-op. -/
theorem c6_extend_idempotent_witness :
    (⟨['a', 'c'], ['b', 'd']⟩ : CharMaps).simplified =
      (⟨['a'], ['b']⟩ : CharMaps).simplified ++
        ((pySplit ['c']).filter
          (fun g => ! containsSub (⟨['a'], ['b']⟩ : CharMaps).simplified g)).flatten ∧
    (⟨['a', 'c'], ['b', 'd']⟩ : CharMaps).traditional =
      (⟨['a'], ['b']⟩ : CharMaps).traditional ++
        ((pySplit ['d']).filter
          (fun g => ! containsSub (⟨['a'], ['b']⟩ : CharMaps).traditional g)).flatten ∧
    extend_char_map ⟨['a', 'c'], ['b', 'd']⟩ ['c'] ['d'] =
      (⟨['a', 'c'], ['b', 'd']⟩, none) :=
  c6_extend_idempotent ⟨['a'], ['b']⟩ ⟨['a', 'c'], ['b', 'd']⟩ ['c'] ['d'] (by decide)

/-- C7: a character occurring at exactly one position `i` of the simplified
inventory, whose traditional counterpart at `i` first occurs in the
traditional inventory at `i`, survives the Simplified → Traditional →
Simplified round trip. -/
theorem c7_roundtrip_unique_pair (st : CharMaps) (c d : Char) (i : Nat)
    (h1 : st.simplified.count c = 1)
    (h2 : st.simplified.get? i = some c)
    (h3 : st.traditional.get? i = some d)
    (h4 : strFind st.traditional d = some i) :
    toTraditional st [c] = some [d] ∧ toSimplified st [d] = some [c] := by
  have hfindS : strFind st.simplified c = some i :=
    strFind_of_count_one st.simplified c i h1 h2
  have h2' : st.simplified[i]? = some c := by
    rw [← List.get?_eq_getElem?]
    exact h2
  have h3' : st.traditional[i]? = some d := by
    rw [← List.get?_eq_getElem?]
    exact h3
  constructor
  · simp [toTraditional, hcConvert, convertChars, convChar, hfindS, h3']
  · simp [toSimplified, hcConvert, convertChars, convChar, h4, h2']

/-- C7 witness: the unique collision-free pair 'a' / 'b' of the state
(simplified = "a", traditional = "b") round-trips. -/
theorem c7_roundtrip_unique_pair_witness :
    toTraditional ⟨['a'], ['b']⟩ ['a'] = some ['b'] ∧
    toSimplified ⟨['a'], ['b']⟩ ['b'] = some ['a'] :=
  c7_roundtrip_unique_pair ⟨['a'], ['b']⟩ 'a' 'b' 0
    (by decide) (by decide) (by decide) (by decide)

/-- C9 counterexample: from an equal-length state, a failed
`ignore_char_map` (consistency error, removals already applied) leaves
unequal inventories, after which `convert` fails with an index error on
already-decoded text — not only on malformed byte input. -/
theorem c9_counterexample :
    (⟨['a', 'a'], ['b', 'c']⟩ : CharMaps).simplified.length =
      (⟨['a', 'a'], ['b', 'c']⟩ : CharMaps).traditional.length ∧
    (ignore_char_map ⟨['a', 'a'], ['b', 'c']⟩ ['a'] ['b']).2 =
      some MutErr.consistency ∧
    hcConvertE (ignore_char_map ⟨['a', 'a'], ['b', 'c']⟩ ['a'] ['b']).1 false
      (HcInput.text ['c']) = .error ConvErr.indexErr :=
  ⟨rfl, rfl, rfl⟩

/-- C9 (amended): in any state satisfying invariant I1 (equal inventory
lengths, as the bundled dataset does), `convert` never fails on decoded
text; byte input is decoded as UTF-8 and then processed exactly like text,
failing with the decoding error precisely when the bytes are malformed;
and `same` never fails except with that decoding error.  (Without I1 —
reachable after a failed `ignore_char_map` — `convert` can additionally
fail with an index error, see the counterexample.) -/
theorem c9_amended_error_behaviour (st : CharMaps)
    (h : st.simplified.length = st.traditional.length) :
    (∀ (toTrad : Bool) (s : List Char),
        ∃ r, hcConvertE st toTrad (HcInput.text s) = .ok r) ∧
    (∀ (toTrad : Bool) (bs : List Nat) (s : List Char), utf8Decode? bs = some s →
        hcConvertE st toTrad (HcInput.bytes bs) =
          hcConvertE st toTrad (HcInput.text s)) ∧
    (∀ (toTrad : Bool) (bs : List Nat), utf8Decode? bs = none →
        hcConvertE st toTrad (HcInput.bytes bs) = .error ConvErr.decoding) ∧
    (∀ a b : HcInput, (∃ r, sameE st a b = .ok r) ∨
        sameE st a b = .error ConvErr.decoding) := by
  have htext : ∀ (tt : Bool) (s : List Char),
      ∃ r, hcConvertE st tt (HcInput.text s) = .ok r := by
    intro tt s
    have hout : ∃ out, hcConvert st tt s = some out := by
      cases tt with
      | false => exact convertChars_total st.traditional st.simplified h.symm s
      | true => exact convertChars_total st.simplified st.traditional h s
    obtain ⟨out, hout⟩ := hout
    exact ⟨out, by simp [hcConvertE, hout]⟩
  have hbytes : ∀ (tt : Bool) (bs : List Nat) (s : List Char),
      utf8Decode? bs = some s →
      hcConvertE st tt (HcInput.bytes bs) = hcConvertE st tt (HcInput.text s) := by
    intro tt bs s hdec
    simp [hcConvertE, hdec]
  refine ⟨htext, hbytes, fun tt bs hdec => by simp [hcConvertE, hdec], fun a b => ?_⟩
  have hclass : ∀ inp : HcInput,
      (∃ r, hcConvertE st false inp = .ok r) ∨
        hcConvertE st false inp = .error ConvErr.decoding := by
    intro inp
    cases inp with
    | text s => exact Or.inl (htext false s)
    | bytes bs =>
      cases hdec : utf8Decode? bs with
      | none => exact Or.inr (by simp [hcConvertE, hdec])
      | some s =>
        obtain ⟨r, hr⟩ := htext false s
        exact Or.inl ⟨r, by rw [hbytes false bs s hdec]; exact hr⟩
  rcases hclass a with ⟨ra, hra⟩ | hra
  · rcases hclass b with ⟨rb, hrb⟩ | hrb
    · exact Or.inl ⟨ra == rb, by simp only [sameE]; rw [hra, hrb]; rfl⟩
    · exact Or.inr (by simp only [sameE]; rw [hra, hrb]; rfl)
  · exact Or.inr (by simp only [sameE]; rw [hra]; rfl)

/-- C9 witness: the amended behaviour at the concrete I1 state
(simplified = "a", traditional = "b"). -/
theorem c9_amended_error_behaviour_witness :
    (∀ (toTrad : Bool) (s : List Char),
        ∃ r, hcConvertE ⟨['a'], ['b']⟩ toTrad (HcInput.text s) = .ok r) ∧
    (∀ (toTrad : Bool) (bs : List Nat) (s : List Char), utf8Decode? bs = some s →
        hcConvertE ⟨['a'], ['b']⟩ toTrad (HcInput.bytes bs) =
          hcConvertE ⟨['a'], ['b']⟩ toTrad (HcInput.text s)) ∧
    (∀ (toTrad : Bool) (bs : List Nat), utf8Decode? bs = none →
        hcConvertE ⟨['a'], ['b']⟩ toTrad (HcInput.bytes bs) =
          .error ConvErr.decoding) ∧
    (∀ a b : HcInput, (∃ r, sameE ⟨['a'], ['b']⟩ a b = .ok r) ∨
        sameE ⟨['a'], ['b']⟩ a b = .error ConvErr.decoding) :=
  c9_amended_error_behaviour ⟨['a'], ['b']⟩ (by decide)

end HanziConvSpec
